import Mathlib

/-!
Verification of the column-based steganography tool `tv_effect_crypt.py`.

The Python program hides ASCII text in an RGB image: it first "lightens"
the carrier (adds 1 to every channel, clamped at 255), then walks columns
x = 1, 1+step, 1+2*step, ... (< width) and, within each column, rows
y = 0 .. height-1, painting a visited pixel pure black when the current
payload bit equals the chosen black-bit value (or unconditionally once the
payload is exhausted) and leaving it untouched otherwise.  Extraction walks
the same pixels, reads black as the black-bit value and non-black as its
complement, and converts each complete group of 8 bits into a character,
dropping a trailing partial group.

This file gives a shallow embedding of that program.  Text payloads are
lists of character codes (`ord` values), images are a width, a height and a
pixel function, and the file-system boundary is a partial map from path
names to images.
-/

namespace TVEffectCrypt

/-- An RGB pixel: three 8-bit channel values (modelled as naturals). -/
abbrev Pixel : Type := Nat × Nat × Nat

/-- Pure black, the marker colour written by the embedder. -/
def blackPixel : Pixel := (0, 0, 0)

/-- An image: fixed dimensions plus a pixel accessor (`pixels[x, y]`). -/
structure Image where
  w : Nat
  h : Nat
  px : Nat → Nat → Pixel

/-- Write one pixel (`pixels[x, y] = p` in the source). -/
def setPx (img : Image) (x y : Nat) (p : Pixel) : Image :=
  { img with px := fun a b => if a = x ∧ b = y then p else img.px a b }

/-- Python `range(start, stop, step)` for a positive `step`:
the values `start + step * i` while they stay below `stop`. -/
def pyRange (start stop step : Nat) : List Nat :=
  (List.range ((stop - start + (step - 1)) / step)).map (fun i => start + step * i)

/-- The column/row walk shared by the embedder
(`for x in range(1, w, column_step): for y in range(h)`). -/
def embedCoords (w h step : Nat) : List (Nat × Nat) :=
  (pyRange 1 w step).flatMap (fun x => (List.range h).map (fun y => (x, y)))

/-- The column/row walk performed by the extractor
(`for x in range(1, w, column_step): for y in range(h)`). -/
def extractCoords (w h step : Nat) : List (Nat × Nat) :=
  (pyRange 1 w step).flatMap (fun x => (List.range h).map (fun y => (x, y)))

/-- Number of pixels visited by the sampling pattern (the capacity in bits). -/
def visitCount (w h step : Nat) : Nat :=
  ((w - 1 + (step - 1)) / step) * h

/-- `min (c+1) 255` on all three channels of one pixel. -/
def lightenPixel (p : Pixel) : Pixel :=
  (min (p.1 + 1) 255, min (p.2.1 + 1) 255, min (p.2.2 + 1) 255)

/-- The in-memory core of `lighten_image_min`: add 1 to each RGB channel of
each pixel of the grid, clamped to 255.  The loop only touches coordinates
inside the image. -/
def lightenImage (img : Image) : Image :=
  { img with px := fun x y => if x < img.w ∧ y < img.h then lightenPixel (img.px x y) else img.px x y }

/-- Binary digits of `n`, most significant first (Python `format(n, "b")`),
accumulated with explicit fuel (`fuel ≥ n` suffices). -/
def natToBinAux : Nat → Nat → List Nat
  | 0, _ => []
  | fuel + 1, n => if n = 0 then [] else natToBinAux fuel (n / 2) ++ [n % 2]

/-- Python `format(n, "b")`: minimal binary representation, MSB first. -/
def natToBin (n : Nat) : List Nat :=
  if n = 0 then [0] else natToBinAux n n

/-- Python `format(ord(ch), "08b")`: the binary representation zero-padded
on the left to a minimum width of 8. -/
def charToBits (c : Nat) : List Nat :=
  List.replicate (8 - (natToBin c).length) 0 ++ natToBin c

/-- `text_to_bits_flat`: concatenate the 8-bit (for byte-sized codes)
representations of all characters. -/
def text_to_bits_flat (text : List Nat) : List Nat :=
  text.flatMap charToBits

/-- Python `int(s, 2)` on a digit list: MSB-first binary value. -/
def bits_to_byte (byte : List Nat) : Nat :=
  byte.foldl (fun acc b => 2 * acc + b) 0

/-- `bits_to_text`: convert each complete group of 8 bits, in order, into
one character code; a trailing group of fewer than 8 bits is dropped. -/
def bits_to_text : List Nat → List Nat
  | b0 :: b1 :: b2 :: b3 :: b4 :: b5 :: b6 :: b7 :: rest =>
      bits_to_byte [b0, b1, b2, b3, b4, b5, b6, b7] :: bits_to_text rest
  | _ => []

/-- The embedding loop of `embed_text_bits_into_image`: walk the visited
coordinates keeping the running bit index `idx`; paint black when the
payload is exhausted or the current bit equals `black_bit_value`, leave the
pixel unchanged otherwise. -/
def embedLoop (bits : List Nat) (black_bit_value : Nat) :
    List (Nat × Nat) → Nat → Image → Image
  | [], _, img => img
  | (x, y) :: rest, idx, img =>
      embedLoop bits black_bit_value rest (idx + 1)
        (if bits.length ≤ idx then setPx img x y blackPixel
         else if bits.getD idx 0 = black_bit_value then setPx img x y blackPixel
         else img)

/-- The in-memory core of `embed_text_bits_into_image`: embed the bits of
`text` into the image along the column walk. -/
def embedImage (text : List Nat) (img : Image) (black_bit_value column_step : Nat) : Image :=
  embedLoop (text_to_bits_flat text) black_bit_value
    (embedCoords img.w img.h column_step) 0 img

/-- The bit-reading part of `extract_text_from_image`: black reads as
`black_bit_value`, anything else as `1 - black_bit_value`. -/
def extractBits (img : Image) (black_bit_value column_step : Nat) : List Nat :=
  (extractCoords img.w img.h column_step).map
    (fun c => if img.px c.1 c.2 = blackPixel then black_bit_value else 1 - black_bit_value)

/-- The in-memory core of `extract_text_from_image`. -/
def extractImage (img : Image) (black_bit_value column_step : Nat) : List Nat :=
  bits_to_text (extractBits img black_bit_value column_step)

/-- The error taxonomy of the tool: a missing input file
(`FileNotFoundError`, exit code 2) is distinguished from any other
unexpected failure (exit code 3). -/
inductive StegError where
  | notFound : StegError
  | other : StegError
deriving DecidableEq

/-- A file system: maps a path name to the image stored there, if any. -/
def FileSystem : Type := String → Option Image

/-- `lighten_image_min`: raise Not-Found when `<stem>.png` is absent,
otherwise lighten it (the result is what is saved to
`<stem>_lightened.png`). -/
def lighten_image_min (fs : FileSystem) (image_stem : String) : Except StegError Image :=
  match fs (image_stem ++ ".png") with
  | none => Except.error StegError.notFound
  | some img => Except.ok (lightenImage img)

/-- `embed_text_bits_into_image`: raise Not-Found when
`<stem>_lightened.png` is absent, otherwise embed the text (the result is
what is saved to `<stem>_steg.png`). -/
def embed_text_bits_into_image (fs : FileSystem) (text : List Nat) (image_stem : String)
    (black_bit_value column_step : Nat) : Except StegError Image :=
  match fs (image_stem ++ "_lightened.png") with
  | none => Except.error StegError.notFound
  | some img => Except.ok (embedImage text img black_bit_value column_step)

/-- `extract_text_from_image`: raise Not-Found when `<stem>_steg.png` is
absent, otherwise decode the text from it. -/
def extract_text_from_image (fs : FileSystem) (image_stem : String)
    (black_bit_value column_step : Nat) : Except StegError (List Nat) :=
  match fs (image_stem ++ "_steg.png") with
  | none => Except.error StegError.notFound
  | some img => Except.ok (extractImage img black_bit_value column_step)

/-- The sampling pattern in the words of the specification: columns
`x = 1, 1 + S, 1 + 2 * S, …` while `x < W`, written as the while-loop it
describes (with fuel; `fuel = w` suffices when `S ≥ 1`). -/
def specColsAux (w S : Nat) : Nat → Nat → List Nat
  | _, 0 => []
  | x, fuel + 1 => if x < w then x :: specColsAux w S (x + S) fuel else []

/-- The spec's column sequence: start at `x = 1`, advance by `S` while `x < W`. -/
def specCols (w S : Nat) : List Nat :=
  specColsAux w S 1 w

/-- The spec's sampling pattern: each visited column in order, and within
it rows `y = 0 .. H-1` in increasing order. -/
def specSampleCoords (w h S : Nat) : List (Nat × Nat) :=
  (specCols w S).flatMap (fun x => (List.range h).map (fun y => (x, y)))

/-! ### Sampling-pattern lemmas -/

theorem pyRange_one (w step : Nat) :
    pyRange 1 w step = (List.range ((w - 1 + (step - 1)) / step)).map (fun i => 1 + step * i) :=
  rfl

/-- The spec's while-loop column walk computes `range(x, w, S)` whenever the
fuel is sufficient. -/
theorem specColsAux_eq (w S : Nat) (hS : 1 ≤ S) :
    ∀ (fuel x : Nat), w ≤ x + S * fuel →
      specColsAux w S x fuel
        = (List.range ((w - x + (S - 1)) / S)).map (fun i => x + S * i) := by
  intro fuel
  induction fuel with
  | zero =>
      intro x hx
      have h0 : w - x = 0 := by omega
      have : (w - x + (S - 1)) / S = 0 := by
        apply Nat.div_eq_of_lt; omega
      simp [specColsAux, this]
  | succ fuel ih =>
      intro x hx
      by_cases hxw : x < w
      · have hd : 1 ≤ w - x := by omega
        have hcount : (w - x + (S - 1)) / S = ((w - x - 1) / S) + 1 := by
          have : w - x + (S - 1) = (w - x - 1) + S := by omega
          rw [this, Nat.add_div_right _ (by omega)]
        have htail : (w - (x + S) + (S - 1)) / S = (w - x - 1) / S := by
          rcases le_or_lt S (w - x) with hc | hc
          · congr 1; omega
          · have h1 : w - (x + S) + (S - 1) < S := by omega
            have h2 : w - x - 1 < S := by omega
            rw [Nat.div_eq_of_lt h1, Nat.div_eq_of_lt h2]
        have hfuel : w ≤ (x + S) + S * fuel := by
          have hms : S * (fuel + 1) = S * fuel + S := by ring
          omega
        rw [specColsAux, if_pos hxw, ih (x + S) hfuel, htail, hcount,
          List.range_succ_eq_map, List.map_cons, List.map_map]
        refine congrArg₂ _ (by omega) (List.map_congr_left ?_)
        intro i _
        simp only [Function.comp_apply, Nat.succ_eq_add_one]
        ring
      · have h0 : w - x = 0 := by omega
        have : (w - x + (S - 1)) / S = 0 := by
          apply Nat.div_eq_of_lt; omega
        simp [specColsAux, hxw, this]

/-- The spec's column description agrees with the code's `range(1, w, step)`. -/
theorem specCols_eq_pyRange (w S : Nat) (hS : 1 ≤ S) :
    specCols w S = pyRange 1 w S := by
  have hfuel : w ≤ 1 + S * w := by
    have : w ≤ S * w := Nat.le_mul_of_pos_left w (by omega)
    omega
  rw [specCols, specColsAux_eq w S hS w 1 hfuel, pyRange_one]

theorem embedCoords_eq_extractCoords (w h step : Nat) :
    embedCoords w h step = extractCoords w h step := rfl

theorem extractCoords_length (w h step : Nat) :
    (extractCoords w h step).length = visitCount w h step := by
  simp [extractCoords, pyRange, visitCount, List.length_flatMap,
    Function.comp_def, List.map_const']

/-- Every coordinate visited by the walk lies strictly inside the image,
in a column `x ≥ 1`. -/
theorem mem_extractCoords (w h step : Nat) (hS : 1 ≤ step) (c : Nat × Nat)
    (hc : c ∈ extractCoords w h step) : 1 ≤ c.1 ∧ c.1 < w ∧ c.2 < h := by
  simp only [extractCoords, List.mem_flatMap, List.mem_map, pyRange,
    List.mem_range] at hc
  obtain ⟨x, ⟨i, hi, rfl⟩, y, hy, rfl⟩ := hc
  refine ⟨by omega, ?_, hy⟩
  have h1 : (i + 1) * step ≤ ((w - 1 + (step - 1)) / step) * step := by
    exact Nat.mul_le_mul_right step hi
  have h2 : ((w - 1 + (step - 1)) / step) * step ≤ w - 1 + (step - 1) :=
    Nat.div_mul_le_self _ step
  have h3 : step * i + step ≤ w - 1 + (step - 1) := by
    have : (i + 1) * step = step * i + step := by ring
    omega
  omega

theorem extractCoords_nodup (w h step : Nat) (hS : 1 ≤ step) :
    (extractCoords w h step).Nodup := by
  rw [extractCoords, List.nodup_flatMap]
  constructor
  · intro x _
    exact List.Nodup.map (fun a b hab => congrArg Prod.snd hab) (List.nodup_range h)
  · have hinj : ∀ i j : Nat, 1 + step * i = 1 + step * j → i = j := by
      intro i j hij
      have : step * i = step * j := by omega
      exact Nat.eq_of_mul_eq_mul_left (by omega) this
    rw [pyRange]
    refine List.Pairwise.map _ ?_ (List.pairwise_lt_range _)
    intro a b hab c hc1 hc2
    simp only [List.mem_map, List.mem_range] at hc1 hc2
    obtain ⟨y, _, rfl⟩ := hc1
    obtain ⟨y', _, hc⟩ := hc2
    have heq : 1 + step * b = 1 + step * a := by
      have := congrArg Prod.fst hc
      simpa using this
    exact absurd (hinj b a heq) (Nat.ne_of_gt hab)

/-! ### Embedding-loop lemmas -/

/-- The value the embedding loop leaves at the `j`-th visited pixel, as a
function of the bit stream and the pixel's previous value. -/
def embedVal (bits : List Nat) (black_bit_value j : Nat) (old : Pixel) : Pixel :=
  if bits.length ≤ j then blackPixel
  else if bits.getD j 0 = black_bit_value then blackPixel
  else old

theorem setPx_w (img : Image) (x y : Nat) (p : Pixel) : (setPx img x y p).w = img.w := rfl

theorem setPx_h (img : Image) (x y : Nat) (p : Pixel) : (setPx img x y p).h = img.h := rfl

theorem setPx_px_ne (img : Image) (x y a b : Nat) (p : Pixel) (h : (a, b) ≠ (x, y)) :
    (setPx img x y p).px a b = img.px a b := by
  have : ¬(a = x ∧ b = y) := by
    rintro ⟨rfl, rfl⟩; exact h rfl
  simp [setPx, this]

theorem setPx_px_self (img : Image) (x y : Nat) (p : Pixel) :
    (setPx img x y p).px x y = p := by
  simp [setPx]

theorem embedLoop_w (bits : List Nat) (black : Nat) :
    ∀ (coords : List (Nat × Nat)) (idx : Nat) (img : Image),
      (embedLoop bits black coords idx img).w = img.w := by
  intro coords
  induction coords with
  | nil => intro idx img; rfl
  | cons c rest ih =>
      intro idx img
      obtain ⟨x, y⟩ := c
      rw [embedLoop, ih]
      split
      · rfl
      · split <;> rfl

theorem embedLoop_h (bits : List Nat) (black : Nat) :
    ∀ (coords : List (Nat × Nat)) (idx : Nat) (img : Image),
      (embedLoop bits black coords idx img).h = img.h := by
  intro coords
  induction coords with
  | nil => intro idx img; rfl
  | cons c rest ih =>
      intro idx img
      obtain ⟨x, y⟩ := c
      rw [embedLoop, ih]
      split
      · rfl
      · split <;> rfl

/-- Pixels not on the visited list are never written by the embedding loop. -/
theorem embedLoop_px_not_mem (bits : List Nat) (black : Nat) :
    ∀ (coords : List (Nat × Nat)) (idx : Nat) (img : Image) (a b : Nat),
      (a, b) ∉ coords →
      (embedLoop bits black coords idx img).px a b = img.px a b := by
  intro coords
  induction coords with
  | nil => intro idx img a b _; rfl
  | cons c rest ih =>
      intro idx img a b hab
      obtain ⟨x, y⟩ := c
      have hne : (a, b) ≠ (x, y) := fun h => hab (h ▸ List.mem_cons_self _ _)
      have hrest : (a, b) ∉ rest := fun h => hab (List.mem_cons_of_mem _ h)
      rw [embedLoop, ih _ _ a b hrest]
      split
      · exact setPx_px_ne _ _ _ _ _ _ hne
      · split
        · exact setPx_px_ne _ _ _ _ _ _ hne
        · rfl

/-- On a duplicate-free visited list the embedding loop leaves the `k`-th
visited pixel at exactly `embedVal` of its previous value. -/
theorem embedLoop_px_get (bits : List Nat) (black : Nat) :
    ∀ (coords : List (Nat × Nat)) (idx : Nat) (img : Image) (k : Nat) (hk : k < coords.length),
      coords.Nodup →
      (embedLoop bits black coords idx img).px (coords.get ⟨k, hk⟩).1 (coords.get ⟨k, hk⟩).2
        = embedVal bits black (idx + k)
            (img.px (coords.get ⟨k, hk⟩).1 (coords.get ⟨k, hk⟩).2) := by
  intro coords
  induction coords with
  | nil => intro idx img k hk _; simp at hk
  | cons c rest ih =>
      intro idx img k hk hnd
      obtain ⟨x, y⟩ := c
      have hxrest : (x, y) ∉ rest := (List.nodup_cons.mp hnd).1
      have hndrest : rest.Nodup := (List.nodup_cons.mp hnd).2
      match k with
      | 0 =>
          have hget0 : ((x, y) :: rest).get ⟨0, hk⟩ = (x, y) := rfl
          rw [hget0, embedLoop, embedLoop_px_not_mem bits black rest _ _ x y hxrest,
            Nat.add_zero]
          rw [embedVal]
          split
          · exact setPx_px_self _ _ _ _
          · split
            · exact setPx_px_self _ _ _ _
            · rfl
      | k + 1 =>
          have hk' : k < rest.length := by simpa using hk
          have hget : ((x, y) :: rest).get ⟨k + 1, hk⟩ = rest.get ⟨k, hk'⟩ := rfl
          rw [hget, embedLoop, ih (idx + 1) _ k hk' hndrest]
          have hne : rest.get ⟨k, hk'⟩ ≠ (x, y) := by
            intro h
            exact hxrest (h ▸ rest.get_mem k hk')
          have harg :
      (if bits.length ≤ idx then setPx img x y blackPixel
       else if bits.getD idx 0 = black then setPx img x y blackPixel
       else img).px (rest.get ⟨k, hk'⟩).1 (rest.get ⟨k, hk'⟩).2
        = img.px (rest.get ⟨k, hk'⟩).1 (rest.get ⟨k, hk'⟩).2 := by
            have hne' : ((rest.get ⟨k, hk'⟩).1, (rest.get ⟨k, hk'⟩).2) ≠ (x, y) := by
              simpa using hne
            split
            · exact setPx_px_ne _ _ _ _ _ _ hne'
            · split
              · exact setPx_px_ne _ _ _ _ _ _ hne'
              · rfl
          rw [harg]
          have : idx + 1 + k = idx + (k + 1) := by omega
          rw [this]

/-! ### Bit-stream lemmas -/

/-- Unfolding equation for `bits_to_text` in terms of `take`/`drop`. -/
theorem bits_to_text_eq (l : List Nat) :
    bits_to_text l =
      if 8 ≤ l.length then bits_to_byte (l.take 8) :: bits_to_text (l.drop 8) else [] := by
  match l with
  | [] | [_] | [_, _] | [_, _, _] | [_, _, _, _] | [_, _, _, _, _]
  | [_, _, _, _, _, _] | [_, _, _, _, _, _, _] => rfl
  | a :: b :: c :: d :: e :: f :: g :: i :: rest =>
      have hlen : 8 ≤ (a :: b :: c :: d :: e :: f :: g :: i :: rest).length := by
        simp
      rw [if_pos hlen]
      rfl

theorem bits_to_text_short (l : List Nat) (h : l.length < 8) : bits_to_text l = [] := by
  rw [bits_to_text_eq, if_neg (by omega)]

theorem bits_to_text_length_aux :
    ∀ (n : Nat) (l : List Nat), l.length = n → (bits_to_text l).length = l.length / 8 := by
  intro n
  induction n using Nat.strong_induction_on with
  | _ n ih =>
      intro l hl
      rw [bits_to_text_eq]
      by_cases h8 : 8 ≤ l.length
      · rw [if_pos h8]
        have hdrop : (l.drop 8).length = l.length - 8 := by simp
        have hrec := ih (l.length - 8) (by omega) (l.drop 8) (by simp)
        simp only [List.length_cons, hrec, hdrop]
        omega
      · rw [if_neg h8]
        simp only [List.length_nil]
        omega

/-- Decoding yields one character per complete group of 8 bits. -/
theorem bits_to_text_length (l : List Nat) : (bits_to_text l).length = l.length / 8 :=
  bits_to_text_length_aux l.length l rfl

/-- Peeling one full byte group off the front of the stream. -/
theorem bits_to_text_append8 (l rest : List Nat) (h : l.length = 8) :
    bits_to_text (l ++ rest) = bits_to_byte l :: bits_to_text rest := by
  rw [bits_to_text_eq]
  have hlen : 8 ≤ (l ++ rest).length := by simp; omega
  rw [if_pos hlen]
  congr 2
  · rw [← h, List.take_left]
  · rw [← h, List.drop_left]

theorem bits_to_byte_foldl (l : List Nat) : ∀ a : Nat,
    l.foldl (fun acc b => 2 * acc + b) a
      = a * 2 ^ l.length + l.foldl (fun acc b => 2 * acc + b) 0 := by
  induction l with
  | nil => intro a; simp
  | cons b l ih =>
      intro a
      simp only [List.foldl_cons, List.length_cons]
      rw [ih (2 * a + b), ih (2 * 0 + b)]
      ring

theorem bits_to_byte_cons (b : Nat) (l : List Nat) :
    bits_to_byte (b :: l) = b * 2 ^ l.length + bits_to_byte l := by
  rw [bits_to_byte, List.foldl_cons, bits_to_byte_foldl]
  have h0 : (2 : Nat) * 0 + b = b := by omega
  rw [h0]
  rfl

/-- Complementing every bit complements the byte value against `2^n - 1`. -/
theorem bits_to_byte_compl (l : List Nat) (hb : ∀ b ∈ l, b ≤ 1) :
    bits_to_byte (l.map (fun b => 1 - b)) + bits_to_byte l = 2 ^ l.length - 1 := by
  induction l with
  | nil => rfl
  | cons b l ih =>
      have hb1 : b ≤ 1 := hb b (List.mem_cons_self _ _)
      have hbl : ∀ c ∈ l, c ≤ 1 := fun c hc => hb c (List.mem_cons_of_mem _ hc)
      have ihl := ih hbl
      rw [List.map_cons, bits_to_byte_cons, bits_to_byte_cons, List.length_map,
        List.length_cons]
      have hpow : 1 ≤ 2 ^ l.length := Nat.one_le_two_pow
      have hpows : 2 ^ (l.length + 1) = 2 * 2 ^ l.length := by ring
      interval_cases b <;> simp only [Nat.sub_zero, Nat.sub_self, Nat.one_mul,
        Nat.zero_mul] <;> omega

/-- A stream of bits (each ≤ 1) decoded with the complementary polarity
yields, byte group by byte group, the complement against 255. -/
theorem bits_to_text_map_compl_aux :
    ∀ (n : Nat) (l : List Nat), l.length = n → (∀ b ∈ l, b ≤ 1) →
      bits_to_text (l.map (fun b => 1 - b)) = (bits_to_text l).map (fun c => 255 - c) := by
  intro n
  induction n using Nat.strong_induction_on with
  | _ n ih =>
      intro l hl hb
      rw [bits_to_text_eq, bits_to_text_eq l]
      by_cases h8 : 8 ≤ l.length
      · rw [if_pos (by simp; omega), if_pos h8, List.map_cons]
        congr 1
        · rw [← List.map_take]
          have htake8 : (l.take 8).length = 8 := by simp; omega
          have hc := bits_to_byte_compl (l.take 8)
            (fun c hc => hb c (List.mem_of_mem_take hc))
          rw [htake8] at hc
          omega
        · rw [← List.map_drop]
          exact ih (l.length - 8) (by omega) (l.drop 8) (by simp)
            (fun c hc => hb c (List.mem_of_mem_drop hc))
      · rw [if_neg (by simp; omega), if_neg h8, List.map_nil]

theorem bits_to_text_map_compl (l : List Nat) (hb : ∀ b ∈ l, b ≤ 1) :
    bits_to_text (l.map (fun b => 1 - b)) = (bits_to_text l).map (fun c => 255 - c) :=
  bits_to_text_map_compl_aux l.length l rfl hb

/-- A run of `m` copies of the bit `b` decodes to `m / 8` copies of the
character `255 * b` (0 for polarity 0, 255 for polarity 1). -/
theorem bits_to_text_replicate (b : Nat) (hb : b ≤ 1) :
    ∀ m : Nat, bits_to_text (List.replicate m b) = List.replicate (m / 8) (255 * b) := by
  intro m
  induction m using Nat.strong_induction_on with
  | _ m ih =>
      by_cases h8 : 8 ≤ m
      · have hsplit : List.replicate m b = List.replicate 8 b ++ List.replicate (m - 8) b := by
          rw [← List.replicate_add]
          congr 1
          omega
        rw [hsplit, bits_to_text_append8 _ _ (by simp), ih (m - 8) (by omega)]
        have hbyte : bits_to_byte (List.replicate 8 b) = 255 * b := by
          interval_cases b <;> rfl
        have hdiv : m / 8 = (m - 8) / 8 + 1 := by omega
        rw [hbyte, hdiv, List.replicate_succ]
      · rw [bits_to_text_short _ (by simp; omega), Nat.div_eq_of_lt (by omega),
          List.replicate_zero]

/-! ### Character lemmas -/

set_option maxRecDepth 4096 in
/-- For byte-sized codes, `format(ord(ch), "08b")` yields exactly 8 bits,
each 0 or 1, and `int(s, 2)` inverts it. -/
theorem charToBits_facts : ∀ c : Nat, c < 256 →
    (charToBits c).length = 8 ∧ bits_to_byte (charToBits c) = c ∧
      ∀ b ∈ charToBits c, b ≤ 1 := by
  decide

theorem text_to_bits_flat_nil : text_to_bits_flat [] = [] := rfl

theorem text_to_bits_flat_cons (c : Nat) (T : List Nat) :
    text_to_bits_flat (c :: T) = charToBits c ++ text_to_bits_flat T := by
  simp [text_to_bits_flat]

theorem text_to_bits_flat_length (T : List Nat) (hT : ∀ c ∈ T, c < 256) :
    (text_to_bits_flat T).length = 8 * T.length := by
  induction T with
  | nil => rfl
  | cons c T ih =>
      rw [text_to_bits_flat_cons, List.length_append,
        (charToBits_facts c (hT c (List.mem_cons_self _ _))).1,
        ih (fun d hd => hT d (List.mem_cons_of_mem _ hd)), List.length_cons]
      ring

theorem text_to_bits_flat_le_one (T : List Nat) (hT : ∀ c ∈ T, c < 256) :
    ∀ b ∈ text_to_bits_flat T, b ≤ 1 := by
  induction T with
  | nil => intro b hb; simp [text_to_bits_flat] at hb
  | cons c T ih =>
      intro b hb
      rw [text_to_bits_flat_cons, List.mem_append] at hb
      rcases hb with hb | hb
      · exact (charToBits_facts c (hT c (List.mem_cons_self _ _))).2.2 b hb
      · exact ih (fun d hd => hT d (List.mem_cons_of_mem _ hd)) b hb

/-- Decoding a stream that starts with the full bit expansion of `T`
recovers `T` followed by whatever the rest decodes to. -/
theorem bits_to_text_of_text (T : List Nat) (hT : ∀ c ∈ T, c < 256) (rest : List Nat) :
    bits_to_text (text_to_bits_flat T ++ rest) = T ++ bits_to_text rest := by
  induction T with
  | nil => rfl
  | cons c T ih =>
      have hc := charToBits_facts c (hT c (List.mem_cons_self _ _))
      rw [text_to_bits_flat_cons, List.append_assoc,
        bits_to_text_append8 _ _ hc.1, hc.2.1,
        ih (fun d hd => hT d (List.mem_cons_of_mem _ hd)), List.cons_append]

/-- Decoding a truncated bit expansion of `T` recovers the prefix of `T`
whose bits fit in whole byte groups. -/
theorem bits_to_text_take (T : List Nat) (hT : ∀ c ∈ T, c < 256) :
    ∀ N : Nat, bits_to_text ((text_to_bits_flat T).take N) = T.take (N / 8) := by
  induction T with
  | nil =>
      intro N
      simp only [text_to_bits_flat_nil, List.take_nil]
      rfl
  | cons c T ih =>
      intro N
      have hc := charToBits_facts c (hT c (List.mem_cons_self _ _))
      have ihT := ih (fun d hd => hT d (List.mem_cons_of_mem _ hd))
      rw [text_to_bits_flat_cons, List.take_append_eq_append_take]
      by_cases h8 : 8 ≤ N
      · have htake : (charToBits c).take N = charToBits c :=
          List.take_of_length_le (by omega)
        rw [htake, hc.1, bits_to_text_append8 _ _ hc.1, hc.2.1, ihT]
        have hdiv : N / 8 = (N - 8) / 8 + 1 := by omega
        rw [hdiv, List.take_succ_cons]
      · have hlen : ((charToBits c).take N).length = N := by
          rw [List.length_take, hc.1]
          omega
        have hN : N - (charToBits c).length = 0 := by
          rw [hc.1]; omega
        rw [hN, List.take_zero, List.append_nil,
          bits_to_text_short _ (by omega), Nat.div_eq_of_lt (by omega),
          List.take_zero]

/-! ### Lightening lemmas -/

theorem lightenImage_w (img : Image) : (lightenImage img).w = img.w := rfl

theorem lightenImage_h (img : Image) : (lightenImage img).h = img.h := rfl

theorem lightenImage_px_in (img : Image) (x y : Nat) (hx : x < img.w) (hy : y < img.h) :
    (lightenImage img).px x y = lightenPixel (img.px x y) := by
  simp [lightenImage, hx, hy]

theorem lightenPixel_ne_black (p : Pixel) : lightenPixel p ≠ blackPixel := by
  intro h
  have h1 := congrArg Prod.fst h
  simp only [lightenPixel, blackPixel] at h1
  omega

/-! ### The extraction of an embedded image -/

/-- What extraction reads back from an embedded image: the first
`capacity` bits of the stream, padded with the black-bit value once the
stream is exhausted.  Requires that no visited pixel of the carrier is
already black. -/
theorem extractBits_embedLoop (img : Image) (bits : List Nat) (black step : Nat)
    (hblack : black ≤ 1) (hbits : ∀ b ∈ bits, b ≤ 1) (hS : 1 ≤ step)
    (hnb : ∀ c ∈ extractCoords img.w img.h step, img.px c.1 c.2 ≠ blackPixel) :
    extractBits (embedLoop bits black (embedCoords img.w img.h step) 0 img) black step
      = bits.take (visitCount img.w img.h step)
        ++ List.replicate (visitCount img.w img.h step - bits.length) black := by
  have hw : (embedLoop bits black (embedCoords img.w img.h step) 0 img).w = img.w :=
    embedLoop_w bits black _ 0 img
  have hh : (embedLoop bits black (embedCoords img.w img.h step) 0 img).h = img.h :=
    embedLoop_h bits black _ 0 img
  rw [extractBits, hw, hh]
  have hN : (extractCoords img.w img.h step).length = visitCount img.w img.h step :=
    extractCoords_length img.w img.h step
  apply List.ext_getElem
  · simp only [List.length_map, List.length_append, List.length_take,
      List.length_replicate, hN]
    omega
  · intro i h1 h2
    rw [List.length_map, hN] at h1
    rw [List.getElem_map]
    have hi : i < (extractCoords img.w img.h step).length := by rw [hN]; exact h1
    have hpx := embedLoop_px_get bits black (embedCoords img.w img.h step) 0 img i hi
      (extractCoords_nodup img.w img.h step hS)
    have hget : (embedCoords img.w img.h step).get ⟨i, hi⟩
        = (extractCoords img.w img.h step)[i] := rfl
    rw [hget, Nat.zero_add] at hpx
    rw [hpx, embedVal]
    by_cases hlen : bits.length ≤ i
    · rw [if_pos hlen]
      have hval : (if blackPixel = blackPixel then black else 1 - black) = black :=
        if_pos rfl
      rw [hval, List.getElem_append_right (by simp only [List.length_take]; omega),
        List.getElem_replicate]
    · rw [if_neg hlen]
      push_neg at hlen
      have hgetD : bits.getD i 0 = bits[i] := List.getD_eq_getElem bits 0 hlen
      have hleft : (bits.take (visitCount img.w img.h step)
            ++ List.replicate (visitCount img.w img.h step - bits.length) black)[i]
          = bits[i] := by
        rw [List.getElem_append_left (by simp only [List.length_take]; omega)]
        exact List.getElem_take bits
      by_cases hbit : bits.getD i 0 = black
      · rw [if_pos hbit, hleft]
        have hval : (if blackPixel = blackPixel then black else 1 - black) = black :=
          if_pos rfl
        rw [hval, ← hgetD, hbit]
      · rw [if_neg hbit]
        have hne := hnb _ (List.getElem_mem hi)
        rw [if_neg hne, hleft]
        have hb1 : bits[i] ≤ 1 := hbits _ (List.getElem_mem hlen)
        rw [hgetD] at hbit
        omega

/-- Extraction after embedding on a lightened carrier, when the payload
fits: the text comes back followed by filler characters, one per complete
byte group of black padding. -/
theorem extractImage_embedImage_fits (img : Image) (T : List Nat) (p S : Nat)
    (hT : ∀ c ∈ T, c < 256) (hp : p ≤ 1) (hS : 1 ≤ S)
    (hcap : 8 * T.length ≤ visitCount img.w img.h S) :
    extractImage (embedImage T (lightenImage img) p S) p S
      = T ++ List.replicate ((visitCount img.w img.h S - 8 * T.length) / 8) (255 * p) := by
  have hlen : (text_to_bits_flat T).length = 8 * T.length := text_to_bits_flat_length T hT
  have hnb : ∀ c ∈ extractCoords (lightenImage img).w (lightenImage img).h S,
      (lightenImage img).px c.1 c.2 ≠ blackPixel := by
    intro c hc
    obtain ⟨_, hxw, hyh⟩ := mem_extractCoords img.w img.h S hS c hc
    rw [lightenImage_px_in img c.1 c.2 hxw hyh]
    exact lightenPixel_ne_black _
  rw [extractImage, embedImage,
    extractBits_embedLoop (lightenImage img) _ p S hp
      (text_to_bits_flat_le_one T hT) hS hnb]
  rw [lightenImage_w, lightenImage_h, hlen,
    List.take_of_length_le (by rw [hlen]; exact hcap),
    bits_to_text_of_text T hT _, bits_to_text_replicate p hp]

/-- Extraction after embedding on a lightened carrier, when the payload
exceeds capacity: exactly the prefix of whole characters that fit. -/
theorem extractImage_embedImage_trunc (img : Image) (T : List Nat) (p S : Nat)
    (hT : ∀ c ∈ T, c < 256) (hp : p ≤ 1) (hS : 1 ≤ S)
    (hcap : visitCount img.w img.h S < 8 * T.length) :
    extractImage (embedImage T (lightenImage img) p S) p S
      = T.take (visitCount img.w img.h S / 8) := by
  have hlen : (text_to_bits_flat T).length = 8 * T.length := text_to_bits_flat_length T hT
  have hnb : ∀ c ∈ extractCoords (lightenImage img).w (lightenImage img).h S,
      (lightenImage img).px c.1 c.2 ≠ blackPixel := by
    intro c hc
    obtain ⟨_, hxw, hyh⟩ := mem_extractCoords img.w img.h S hS c hc
    rw [lightenImage_px_in img c.1 c.2 hxw hyh]
    exact lightenPixel_ne_black _
  rw [extractImage, embedImage,
    extractBits_embedLoop (lightenImage img) _ p S hp
      (text_to_bits_flat_le_one T hT) hS hnb]
  rw [lightenImage_w, lightenImage_h, hlen]
  have h0 : visitCount img.w img.h S - 8 * T.length = 0 := by omega
  rw [h0, List.replicate_zero, List.append_nil, bits_to_text_take T hT]

theorem embedImage_w (T : List Nat) (img : Image) (p S : Nat) :
    (embedImage T img p S).w = img.w := by
  rw [embedImage, embedLoop_w]

theorem embedImage_h (T : List Nat) (img : Image) (p S : Nat) :
    (embedImage T img p S).h = img.h := by
  rw [embedImage, embedLoop_h]

theorem extractBits_le_one (img : Image) (p S : Nat) (hp : p ≤ 1) :
    ∀ b ∈ extractBits img p S, b ≤ 1 := by
  intro b hb
  simp only [extractBits, List.mem_map] at hb
  obtain ⟨c, _, rfl⟩ := hb
  split <;> omega

/-- Reading an arbitrary image with the complementary polarity yields the
pointwise complement of the bit stream read with the original polarity. -/
theorem extractBits_compl (img : Image) (p S : Nat) :
    extractBits img (1 - p) S = (extractBits img p S).map (fun b => 1 - b) := by
  rw [extractBits, extractBits, List.map_map]
  apply List.map_congr_left
  intro c _
  simp only [Function.comp_apply]
  by_cases h : img.px c.1 c.2 = blackPixel
  · rw [if_pos h, if_pos h]
  · rw [if_neg h, if_neg h]

theorem extractImage_length (img : Image) (p S : Nat) :
    (extractImage img p S).length = visitCount img.w img.h S / 8 := by
  rw [extractImage, bits_to_text_length, extractBits, List.length_map,
    extractCoords_length]

/-! ### Concrete test images -/

/-- A 4×8 uniformly grey carrier (capacity 16 bits at stride 2). -/
def greyImage : Image := ⟨4, 8, fun _ _ => (5, 5, 5)⟩

/-- A 4×4 uniformly grey carrier (capacity 8 bits at stride 2). -/
def greyImage4 : Image := ⟨4, 4, fun _ _ => (5, 5, 5)⟩

/-- A 2×2 pure-black carrier. -/
def blackImage : Image := ⟨2, 2, fun _ _ => (0, 0, 0)⟩

/-! ### Claims -/

/-- C4: for every stride `S ≥ 1` and dimensions `(W, H)`, the encoder and
the decoder visit exactly the same sequence of pixel coordinates in the
same order, namely the spec's pattern: columns `x = 1, 1+S, 1+2S, …` while
`x < W`, and within each visited column rows `y = 0 .. H-1` in increasing
order; for `S ≥ W` at most the single column `x = 1` is sampled, without
error. -/
theorem C4_sampling_pattern (w h S : Nat) (hS : 1 ≤ S) :
    embedCoords w h S = extractCoords w h S
    ∧ embedCoords w h S = specSampleCoords w h S
    ∧ (w ≤ S → ∀ c ∈ embedCoords w h S, c.1 = 1) := by
  refine ⟨rfl, ?_, ?_⟩
  · rw [specSampleCoords, specCols_eq_pyRange w S hS]
    rfl
  · intro hws c hc
    simp only [embedCoords, List.mem_flatMap, List.mem_map, pyRange,
      List.mem_range] at hc
    obtain ⟨x, ⟨i, hi, rfl⟩, y, hy, rfl⟩ := hc
    have hcount : (w - 1 + (S - 1)) / S < 2 :=
      Nat.div_lt_of_lt_mul (by omega)
    have hi0 : i = 0 := by omega
    simp [hi0]

/-- C4 witness: at `W = 4`, `H = 2`, `S = 5 ≥ W` the two walks agree with
the spec pattern and stay in column 1. -/
theorem C4_witness :
    embedCoords 4 2 5 = extractCoords 4 2 5
    ∧ embedCoords 4 2 5 = specSampleCoords 4 2 5
    ∧ (4 ≤ 5 → ∀ c ∈ embedCoords 4 2 5, c.1 = 1) :=
  C4_sampling_pattern 4 2 5 (by decide)

/-- C5: the lightening transform keeps the dimensions, maps every in-range
pixel channel `c` to `min (c+1) 255` (increment saturating at 255, never
wrapping), so a channel at 255 stays 255 and a channel at 0 becomes 1. -/
theorem C5_lightening (img : Image) (x y : Nat) (hx : x < img.w) (hy : y < img.h) :
    (lightenImage img).w = img.w
    ∧ (lightenImage img).h = img.h
    ∧ (lightenImage img).px x y
        = (min ((img.px x y).1 + 1) 255, min ((img.px x y).2.1 + 1) 255,
            min ((img.px x y).2.2 + 1) 255)
    ∧ ((img.px x y).1 = 255 → ((lightenImage img).px x y).1 = 255)
    ∧ ((img.px x y).2.1 = 255 → ((lightenImage img).px x y).2.1 = 255)
    ∧ ((img.px x y).2.2 = 255 → ((lightenImage img).px x y).2.2 = 255)
    ∧ ((img.px x y).1 = 0 → ((lightenImage img).px x y).1 = 1)
    ∧ ((img.px x y).2.1 = 0 → ((lightenImage img).px x y).2.1 = 1)
    ∧ ((img.px x y).2.2 = 0 → ((lightenImage img).px x y).2.2 = 1) := by
  rw [lightenImage_px_in img x y hx hy]
  refine ⟨rfl, rfl, rfl, ?_, ?_, ?_, ?_, ?_, ?_⟩ <;>
    { intro h; simp [lightenPixel, h] }

/-- C5 witness: on the black 2×2 carrier, pixel (0,0) with channels 0
becomes (1,1,1). -/
theorem C5_witness :
    (lightenImage blackImage).w = blackImage.w
    ∧ (lightenImage blackImage).h = blackImage.h
    ∧ (lightenImage blackImage).px 0 0
        = (min ((blackImage.px 0 0).1 + 1) 255, min ((blackImage.px 0 0).2.1 + 1) 255,
            min ((blackImage.px 0 0).2.2 + 1) 255)
    ∧ ((blackImage.px 0 0).1 = 255 → ((lightenImage blackImage).px 0 0).1 = 255)
    ∧ ((blackImage.px 0 0).2.1 = 255 → ((lightenImage blackImage).px 0 0).2.1 = 255)
    ∧ ((blackImage.px 0 0).2.2 = 255 → ((lightenImage blackImage).px 0 0).2.2 = 255)
    ∧ ((blackImage.px 0 0).1 = 0 → ((lightenImage blackImage).px 0 0).1 = 1)
    ∧ ((blackImage.px 0 0).2.1 = 0 → ((lightenImage blackImage).px 0 0).2.1 = 1)
    ∧ ((blackImage.px 0 0).2.2 = 0 → ((lightenImage blackImage).px 0 0).2.2 = 1) :=
  C5_lightening blackImage 0 0 (by decide) (by decide)

/-- C6: in the output of the lightening transform, no in-range pixel has
all three channels equal to 0, whatever the input image (even one with
pure-black pixels). -/
theorem C6_no_black_after_lightening (img : Image) (x y : Nat)
    (hx : x < img.w) (hy : y < img.h) :
    ¬(((lightenImage img).px x y).1 = 0 ∧ ((lightenImage img).px x y).2.1 = 0
        ∧ ((lightenImage img).px x y).2.2 = 0) := by
  rw [lightenImage_px_in img x y hx hy]
  rintro ⟨h1, _, _⟩
  simp only [lightenPixel] at h1
  omega

/-- C6 witness: the lightened black 2×2 carrier has no black pixel at (0,0). -/
theorem C6_witness :
    ¬(((lightenImage blackImage).px 0 0).1 = 0
        ∧ ((lightenImage blackImage).px 0 0).2.1 = 0
        ∧ ((lightenImage blackImage).px 0 0).2.2 = 0) :=
  C6_no_black_after_lightening blackImage 0 0 (by decide) (by decide)

/-- C8: during encoding, every pixel visited by the sampling pattern is
either left exactly at its input value or set to pure black, and no pixel
outside the sampling pattern is written. -/
theorem C8_frame_effect (img : Image) (T : List Nat) (p S : Nat) (hS : 1 ≤ S)
    (x y : Nat) :
    ((x, y) ∈ embedCoords img.w img.h S →
      (embedImage T img p S).px x y = img.px x y
      ∨ (embedImage T img p S).px x y = blackPixel)
    ∧ ((x, y) ∉ embedCoords img.w img.h S →
      (embedImage T img p S).px x y = img.px x y) := by
  constructor
  · intro hmem
    obtain ⟨⟨k, hk⟩, hget⟩ := List.mem_iff_get.mp hmem
    have hpx := embedLoop_px_get (text_to_bits_flat T) p
      (embedCoords img.w img.h S) 0 img k hk
      (extractCoords_nodup img.w img.h S hS)
    rw [hget] at hpx
    rw [embedImage, hpx, embedVal]
    split
    · exact Or.inr rfl
    · split
      · exact Or.inr rfl
      · exact Or.inl rfl
  · intro hmem
    exact embedLoop_px_not_mem (text_to_bits_flat T) p _ 0 img x y hmem

/-- C8 witness: on the grey 4×8 carrier with payload "A", pixel (1,0) is
visited and pixel (0,0) is not. -/
theorem C8_witness :
    (((1 : Nat), (0 : Nat)) ∈ embedCoords greyImage.w greyImage.h 2 →
      (embedImage [65] greyImage 0 2).px 1 0 = greyImage.px 1 0
      ∨ (embedImage [65] greyImage 0 2).px 1 0 = blackPixel)
    ∧ (((1 : Nat), (0 : Nat)) ∉ embedCoords greyImage.w greyImage.h 2 →
      (embedImage [65] greyImage 0 2).px 1 0 = greyImage.px 1 0) :=
  C8_frame_effect greyImage [65] 0 2 (by decide) 1 0

/-- C9: each of the three file operations fails with the Not-Found error
exactly when its required input image is absent from the file system
(`<stem>.png` for lightening, `<stem>_lightened.png` for embedding,
`<stem>_steg.png` for extraction), and Not-Found is a distinct error from
the generic unexpected failure. -/
theorem C9_not_found (fs : FileSystem) (image_stem : String) (text : List Nat)
    (p S : Nat) :
    (lighten_image_min fs image_stem = Except.error StegError.notFound
       ↔ fs (image_stem ++ ".png") = none)
    ∧ (embed_text_bits_into_image fs text image_stem p S
          = Except.error StegError.notFound
       ↔ fs (image_stem ++ "_lightened.png") = none)
    ∧ (extract_text_from_image fs image_stem p S
          = Except.error StegError.notFound
       ↔ fs (image_stem ++ "_steg.png") = none)
    ∧ StegError.notFound ≠ StegError.other := by
  refine ⟨?_, ?_, ?_, by decide⟩
  · rw [lighten_image_min]
    cases hfs : fs (image_stem ++ ".png") <;> simp
  · rw [embed_text_bits_into_image]
    cases hfs : fs (image_stem ++ "_lightened.png") <;> simp
  · rw [extract_text_from_image]
    cases hfs : fs (image_stem ++ "_steg.png") <;> simp

/-- C1 counterexample: the payload "A" (8 bits, ASCII) fits in the 16-bit
capacity of the 4×8 grey carrier at stride 2 and polarity 0, yet decoding
the encoded image returns "A" followed by a NUL filler character, not "A". -/
theorem C1_counterexample :
    (∀ c ∈ ([65] : List Nat), c < 128)
    ∧ 8 * ([65] : List Nat).length ≤ visitCount greyImage.w greyImage.h 2
    ∧ extractImage (embedImage [65] (lightenImage greyImage) 0 2) 0 2 ≠ [65] := by
  decide

/-- C1 (amended): for ASCII text whose bit length fits the sampling
capacity `N`, decoding the encoded (lightened) image yields `T` followed
by `(N - 8|T|) / 8` filler characters (code 0 for polarity 0, 255 for
polarity 1); it yields exactly `T` if and only if fewer than 8 spare
pixels remain after the payload. -/
theorem C1_roundtrip_amended (img : Image) (T : List Nat) (p S : Nat)
    (hT : ∀ c ∈ T, c < 256) (hp : p ≤ 1) (hS : 1 ≤ S)
    (hcap : 8 * T.length ≤ visitCount img.w img.h S) :
    extractImage (embedImage T (lightenImage img) p S) p S
      = T ++ List.replicate ((visitCount img.w img.h S - 8 * T.length) / 8) (255 * p)
    ∧ (extractImage (embedImage T (lightenImage img) p S) p S = T
       ↔ visitCount img.w img.h S - 8 * T.length < 8) := by
  have hmain := extractImage_embedImage_fits img T p S hT hp hS hcap
  refine ⟨hmain, ?_, ?_⟩
  · intro hdec
    rw [hmain] at hdec
    have hlen := congrArg List.length hdec
    simp only [List.length_append, List.length_replicate] at hlen
    omega
  · intro hlt
    rw [hmain]
    have h0 : (visitCount img.w img.h S - 8 * T.length) / 8 = 0 := by omega
    rw [h0, List.replicate_zero, List.append_nil]

/-- C1 witness: on the 4×4 grey carrier (capacity exactly 8 bits at stride
2) the payload "A" round-trips exactly. -/
theorem C1_witness :
    extractImage (embedImage [65] (lightenImage greyImage4) 0 2) 0 2
      = [65] ++ List.replicate
          ((visitCount greyImage4.w greyImage4.h 2 - 8 * ([65] : List Nat).length) / 8)
          (255 * 0)
    ∧ (extractImage (embedImage [65] (lightenImage greyImage4) 0 2) 0 2 = [65]
       ↔ visitCount greyImage4.w greyImage4.h 2 - 8 * ([65] : List Nat).length < 8) :=
  C1_roundtrip_amended greyImage4 [65] 0 2 (by decide) (by decide) (by decide) (by decide)

/-- C2: when the bit length of the text exceeds the sampling capacity `N`,
encoding then decoding with the same polarity and stride yields exactly
the prefix of `T` of `⌊N/8⌋` characters. -/
theorem C2_capacity_truncation (img : Image) (T : List Nat) (p S : Nat)
    (hT : ∀ c ∈ T, c < 256) (hp : p ≤ 1) (hS : 1 ≤ S)
    (hcap : visitCount img.w img.h S < 8 * T.length) :
    extractImage (embedImage T (lightenImage img) p S) p S
      = T.take (visitCount img.w img.h S / 8) :=
  extractImage_embedImage_trunc img T p S hT hp hS hcap

/-- C2 witness: "Hi" (16 bits) into the 8-bit-capacity 4×4 grey carrier
comes back as its 1-character prefix "H". -/
theorem C2_witness :
    extractImage (embedImage [72, 105] (lightenImage greyImage4) 0 2) 0 2
      = ([72, 105] : List Nat).take (visitCount greyImage4.w greyImage4.h 2 / 8) :=
  C2_capacity_truncation greyImage4 [72, 105] 0 2 (by decide) (by decide) (by decide)
    (by decide)

/-- C3 counterexample: encoding the empty string into the 4×4 grey carrier
(8 visited pixels) and decoding it back yields one NUL character, not the
empty string. -/
theorem C3_counterexample :
    extractImage (embedImage [] (lightenImage greyImage4) 0 2) 0 2 ≠ ([] : List Nat) := by
  decide

/-- C3 (amended): encoding the empty string paints every visited pixel
pure black, and decoding the resulting image yields `⌊N/8⌋` copies of the
filler character (code 0 for polarity 0, 255 for polarity 1) — the empty
string exactly when fewer than 8 pixels are visited. -/
theorem C3_empty_payload_amended (img : Image) (p S : Nat) (hp : p ≤ 1) (hS : 1 ≤ S) :
    (∀ c ∈ extractCoords img.w img.h S,
        (embedImage [] (lightenImage img) p S).px c.1 c.2 = blackPixel)
    ∧ extractImage (embedImage [] (lightenImage img) p S) p S
        = List.replicate (visitCount img.w img.h S / 8) (255 * p) := by
  constructor
  · intro c hc
    obtain ⟨⟨k, hk⟩, hget⟩ := List.mem_iff_get.mp hc
    have hpx := embedLoop_px_get (text_to_bits_flat []) p
      (embedCoords img.w img.h S) 0 (lightenImage img) k hk
      (extractCoords_nodup img.w img.h S hS)
    have hget' : (embedCoords img.w img.h S).get ⟨k, hk⟩ = c := hget
    rw [hget'] at hpx
    simp only [embedImage, lightenImage_w, lightenImage_h]
    rw [hpx, embedVal,
      if_pos (show (text_to_bits_flat []).length ≤ 0 + k from Nat.zero_le _)]
  · have h := extractImage_embedImage_fits img [] p S (by simp) hp hS (by simp)
    simpa using h

/-- C3 witness: on the 4×4 grey carrier with polarity 0 every visited
pixel is black and the decode is one NUL character. -/
theorem C3_witness :
    (∀ c ∈ extractCoords greyImage4.w greyImage4.h 2,
        (embedImage [] (lightenImage greyImage4) 0 2).px c.1 c.2 = blackPixel)
    ∧ extractImage (embedImage [] (lightenImage greyImage4) 0 2) 0 2
        = List.replicate (visitCount greyImage4.w greyImage4.h 2 / 8) (255 * 0) :=
  C3_empty_payload_amended greyImage4 0 2 (by decide) (by decide)

/-- C7: decoding with the complementary polarity reads the bitwise
complement of every byte of the matching-polarity decode (hence of the
embedded stream), and the result is never the original nonempty text; no
error is raised, the functions being total. -/
theorem C7_polarity_mismatch (img : Image) (T : List Nat) (p S : Nat)
    (hT : ∀ c ∈ T, c < 256) (hTne : T ≠ []) (hp : p ≤ 1) (hS : 1 ≤ S) :
    extractImage (embedImage T (lightenImage img) p S) (1 - p) S
      = (extractImage (embedImage T (lightenImage img) p S) p S).map (fun c => 255 - c)
    ∧ extractImage (embedImage T (lightenImage img) p S) (1 - p) S ≠ T := by
  have hcompl : extractImage (embedImage T (lightenImage img) p S) (1 - p) S
      = (extractImage (embedImage T (lightenImage img) p S) p S).map (fun c => 255 - c) := by
    rw [extractImage, extractBits_compl,
      bits_to_text_map_compl _ (extractBits_le_one _ p S hp)]
    rfl
  refine ⟨hcompl, ?_⟩
  intro hcontra
  have hLen2 : (extractImage (embedImage T (lightenImage img) p S) p S).length
      = visitCount img.w img.h S / 8 := by
    rw [extractImage_length, embedImage_w, embedImage_h, lightenImage_w, lightenImage_h]
  rw [hcompl] at hcontra
  rcases eq_or_ne (visitCount img.w img.h S / 8) T.length with heq | hne
  · have hcap : 8 * T.length ≤ visitCount img.w img.h S := by omega
    have hfits := extractImage_embedImage_fits img T p S hT hp hS hcap
    have hk : (visitCount img.w img.h S - 8 * T.length) / 8 = 0 := by omega
    rw [hk, List.replicate_zero, List.append_nil] at hfits
    rw [hfits] at hcontra
    obtain ⟨T0, T', rfl⟩ := List.exists_cons_of_ne_nil hTne
    rw [List.map_cons] at hcontra
    injection hcontra with h1 _
    omega
  · have hlen := congrArg List.length hcontra
    rw [List.length_map, hLen2] at hlen
    exact hne hlen

/-- C7 witness: "A" encoded with polarity 0 into the 4×4 grey carrier and
decoded with polarity 1 gives the complement byte 190, not "A". -/
theorem C7_witness :
    extractImage (embedImage [65] (lightenImage greyImage4) 0 2) (1 - 0) 2
      = (extractImage (embedImage [65] (lightenImage greyImage4) 0 2) 0 2).map
          (fun c => 255 - c)
    ∧ extractImage (embedImage [65] (lightenImage greyImage4) 0 2) (1 - 0) 2 ≠ [65] :=
  C7_polarity_mismatch greyImage4 [65] 0 2 (by decide) (by decide) (by decide) (by decide)

/-- C10: decoding is total and always returns exactly `⌊N/8⌋` characters,
where `N = ⌈(W-1)/S⌉ * H` is the number of visited pixels; in particular
any image with `W ≤ 1`, or with fewer than 8 visited pixels, decodes to
the empty string regardless of pixel contents. -/
theorem C10_decode_length (img : Image) (p S : Nat) (hS : 1 ≤ S) :
    (extractCoords img.w img.h S).length = visitCount img.w img.h S
    ∧ (extractImage img p S).length = visitCount img.w img.h S / 8
    ∧ (img.w ≤ 1 → extractImage img p S = [])
    ∧ (visitCount img.w img.h S < 8 → extractImage img p S = []) := by
  have hL := extractImage_length img p S
  refine ⟨extractCoords_length img.w img.h S, hL, ?_, ?_⟩
  · intro hw
    have hw1 : img.w - 1 = 0 := by omega
    have hN : visitCount img.w img.h S = 0 := by
      rw [visitCount, hw1]
      have h0 : (0 + (S - 1)) / S = 0 := Nat.div_eq_of_lt (by omega)
      rw [h0, Nat.zero_mul]
    apply List.eq_nil_of_length_eq_zero
    rw [hL, hN]
  · intro h8
    apply List.eq_nil_of_length_eq_zero
    rw [hL]
    omega

/-- C10 witness: the 4×8 grey carrier decodes (without any embedding) to
a 2-character string at stride 2. -/
theorem C10_witness :
    (extractCoords greyImage.w greyImage.h 2).length = visitCount greyImage.w greyImage.h 2
    ∧ (extractImage greyImage 0 2).length = visitCount greyImage.w greyImage.h 2 / 8
    ∧ (greyImage.w ≤ 1 → extractImage greyImage 0 2 = [])
    ∧ (visitCount greyImage.w greyImage.h 2 < 8 → extractImage greyImage 0 2 = []) :=
  C10_decode_length greyImage 0 2 (by decide)

end TVEffectCrypt
